import Mathlib

/-!
Verification of the API-security sampling core of `appsec-internal-go`.

The Go sources embedded here:
- `apisec/internal/timed/table.go`: the fixed-capacity open-addressing table
  (`entryData` packing, `FindEntry`, `PrunedCopy`).
- `apisec/sampler.go`: the ccache-based `Sampler.DecisionFor` and
  `SamplingKey.hash`.
- `apisec/internal/ccache/bucket.go`: `bucket.getOrStore`.

Machine integers are modelled as `Nat` with explicit `% 2^32` / `% 2^64`
where the Go code relies on fixed width. Stateful Go code is modelled by
explicit state passing (sequential executions, as the claims require).
Atomic loads/stores/CAS collapse to plain reads/writes in a sequential
execution; a sequential CAS always succeeds.

The Go `capacity` constant of the `timed` package is declared in a file not
among the examined sources, so every table operation is parametrised by
`cap`.  The `timed.Set`/`timed.LRU` deduplicator (constructors and `Hit`)
is likewise absent from the examined sources; it is modelled from the spec
(see the doc comments marked "Modelled from the spec").
-/

namespace AppSecInternal

/-- 2^32, the modulus of the 32-bit halves of an `entryData` word. -/
def u32 : Nat := 4294967296

/-- 2^64, the modulus of a packed `entryData` word. -/
def u64 : Nat := 18446744073709551616

/-- `newEntryData` from `table.go`: packs access time and sample time into a
single 64-bit word, `uint64(atime)<<32 | uint64(stime)`.  On the 32-bit
values `atime % u32` and `stime % u32` the shift-or is exactly
`hi * 2^32 + lo`. -/
def newEntryData (atime stime : Nat) : Nat :=
  (atime % u32) * u32 + stime % u32

/-- `entryData.AccessTime` from `table.go`: `uint32(d >> 32)`. -/
def AccessTime (d : Nat) : Nat :=
  d / u32 % u32

/-- `entryData.SampleTime` from `table.go`: `uint32(d)`. -/
def SampleTime (d : Nat) : Nat :=
  d % u32

/-- `entryData.WithAccessTime` from `table.go`:
`(d & 0x00000000_FFFFFFFF) | (entryData(atime) << 32)`; the mask keeps the
low 32 bits (`d % u32`) and the shifted value fills the high 32 bits. -/
def WithAccessTime (d atime : Nat) : Nat :=
  d % u32 + (atime % u32) * u32

/-- `entry` from `table.go`: one slot of the open-addressing table.  A zero
`Key` marks a free slot; `Data` is the packed `entryData` word. -/
structure entry where
  Key : Nat
  Data : Nat
deriving Repr, DecidableEq

instance : Inhabited entry := ⟨⟨0, 0⟩⟩

/-- `table` from `table.go`: `cap + 1` entries (the last one is the reserved
overflow slot) plus the live-item counter. -/
structure table where
  entries : List entry
  count : Nat
deriving Repr, DecidableEq

/-- The fresh table `&table{}`: all slots free, counter zero. -/
def emptyTable (cap : Nat) : table :=
  ⟨List.replicate (cap + 1) default, 0⟩

/-- The probing loop of `table.FindEntry`.  `fuel` counts the probes still
allowed (the Go loop stops after going full circle, i.e. after `cap`
probes); when it runs out the reserved overflow slot `cap` is returned with
`true`. -/
def findEntryLoop (entries : List entry) (cap key : Nat) :
    Nat → Nat → Nat × Bool
  | 0, _ => (cap, true)
  | fuel + 1, idx =>
    let curKey := (entries.getD idx default).Key
    if curKey = 0 ∨ curKey = key then (idx, curKey == key)
    else findEntryLoop entries cap key fuel ((idx + 1) % cap)

/-- `table.FindEntry` from `table.go`: linear probing from `key % cap`,
wrapping modulo `cap`; gives up after a full circle and returns the
overflow slot index `cap` with `true`. -/
def FindEntry (cap : Nat) (t : table) (key : Nat) : Nat × Bool :=
  findEntryLoop t.entries cap key cap (key % cap)

/-- Storing a key/data pair into slot `idx` of a table
(`slot.Key.Store(...); slot.Data.Store(...)` in `table.go`). -/
def storeEntry (t : table) (idx : Nat) (e : entry) : table :=
  { t with entries := t.entries.set idx e }

/-- `config.MaxItemCount` from `apisec/internal/config`. -/
def MaxItemCount : Nat := 4096

/-- The retention bound of `table.PrunedCopy`: `config.MaxItemCount*2/3`. -/
def keepCount : Nat := MaxItemCount * 2 / 3

/-- The entries `table.PrunedCopy` pushes onto its heap: slots that are
neither blank (`Key == 0`) nor expired (`SampleTime < threshold`), in slot
order. -/
def candidates (t : table) (threshold : Nat) : List entry :=
  t.entries.filter fun e => ¬(e.Key = 0 ∨ SampleTime e.Data < threshold)

/-- One `heap.Pop` on the `sortedEntries` max-heap of `table.go`.
`container/heap` is the Go standard library; its contract is that `Pop`
removes an element that is minimal according to `Less`, and
`sortedEntries.Less` orders higher access times first.  This models that
contract, resolving ties deterministically towards the earliest pushed
element: it removes the first element of maximal access time. -/
def popMax : List entry → Option (entry × List entry)
  | [] => none
  | e :: rest =>
    match popMax rest with
    | none => some (e, [])
    | some (m, rest1) =>
      if AccessTime e.Data < AccessTime m.Data then some (m, e :: rest1)
      else some (e, rest)

/-- The reinsertion loop of `table.PrunedCopy`: while the heap is non-empty
and fewer than `keepCount` entries were kept, pop the most recent entry and
store it into the fresh table at the slot `FindEntry` designates.  Returns
the table together with the final value of the `count` local. -/
def pruneLoop (cap : Nat) : Nat → table → List entry → Nat → table × Nat
  | 0, t, _, count => (t, count)
  | fuel + 1, t, cands, count =>
    if count < keepCount then
      match popMax cands with
      | none => (t, count)
      | some (e, rest) =>
        pruneLoop cap fuel (storeEntry t (FindEntry cap t e.Key).1 e) rest
          (count + 1)
    else (t, count)

/-- `table.PrunedCopy` from `table.go`: collect the non-blank, non-expired
entries, then move up to `keepCount` of them — most recent access first —
into a brand new table, and record how many were kept in its counter. -/
def PrunedCopy (cap : Nat) (t : table) (threshold : Nat) : table :=
  let cands := candidates t threshold
  let res := pruneLoop cap cands.length (emptyTable cap) cands 0
  { res.1 with count := res.2 }

/-- The live (non-blank) slots of a table. -/
def liveEntries (t : table) : List entry :=
  t.entries.filter fun e => e.Key ≠ 0

/-! ### The timed deduplicator (`timed.Set` / `timed.LRU`)

The file defining the deduplicator itself (constructors, `zeroKey`, `Hit`)
is not among the examined sources — only its tests and its callers are.
The definitions below are modelled from the spec (§3 "Deduplicator",
§4.3 "Hit") on top of the `table.go` operations above. -/

/-- Modelled from the spec: the deduplicator state (spec §3) — current
table, interval (in the table's seconds unit), and the reserved non-zero
placeholder `zeroKey` that keys hashing to 0 are remapped to (chosen at
construction; the tests read it as `subject.zeroKey`).  The missing Go
source is `timed`'s set/LRU file.  The `rebuilding` single-flight flag is
omitted: in a sequential execution the rebuild CAS always succeeds. -/
structure LRU where
  tbl : table
  intervalSecs : Nat
  zeroKey : Nat
deriving Repr, DecidableEq

/-- Modelled from the spec: a freshly constructed deduplicator — an empty
table, the given interval, and the chosen non-zero placeholder key. -/
def newLRUState (cap intervalSecs zeroKey : Nat) : LRU :=
  ⟨emptyTable cap, intervalSecs, zeroKey⟩

/-- Modelled from the spec (§4.3 step 5): after an insert, if the live-item
counter exceeds the capacity, rebuild via
`PrunedCopy (now - interval)`. -/
def maybeRebuild (cap : Nat) (d : LRU) (now : Nat) : LRU :=
  if cap < d.tbl.count then
    { d with tbl := PrunedCopy cap d.tbl (now - d.intervalSecs) }
  else d

/-- Modelled from the spec (§4.3, sequential execution): `Hit` remaps a
zero key to `zeroKey`, finds the slot via `FindEntry`, and
- on an empty slot installs `entryData(now, now)`, bumps the counter and
  accepts;
- on an existing slot accepts (rewriting both times to `now`) exactly when
  `now - sampleTime ≥ interval`, and otherwise only bumps the access time
  and rejects.
After an insert the capacity check of step 5 may trigger a rebuild.  In a
sequential execution every CAS succeeds, so the race branches of the spec
collapse. -/
def Hit (cap : Nat) (d : LRU) (now key : Nat) : Bool × LRU :=
  let k := if key = 0 then d.zeroKey else key
  let fe := FindEntry cap d.tbl k
  if fe.2 then
    let slot := d.tbl.entries.getD fe.1 default
    if d.intervalSecs ≤ now - SampleTime slot.Data then
      (true, { d with tbl := storeEntry d.tbl fe.1 ⟨slot.Key, newEntryData now now⟩ })
    else
      (false, { d with tbl := storeEntry d.tbl fe.1 ⟨slot.Key, WithAccessTime slot.Data now⟩ })
  else
    let t1 := storeEntry d.tbl fe.1 ⟨k, newEntryData now now⟩
    let t2 := { t1 with count := t1.count + 1 }
    (true, maybeRebuild cap { d with tbl := t2 } now)

/-- Modelled from the spec: `NewSet` validates `1s ≤ interval ≤ 30s` and
fails construction (panics) outside that range; the interval is then kept
in seconds.  Durations are in nanoseconds, as Go's `time.Duration`.
The missing Go source is `timed`'s set/LRU file; the bounds are those the
tests assert (`interval must be at least 1s`, `must not exceed 30s`). -/
def NewSet (cap : Nat) (intervalNs : Int) (zeroKey : Nat) : Except String LRU :=
  if intervalNs < 1000000000 then
    Except.error "NewSet: interval must be at least 1s"
  else if 30000000000 < intervalNs then
    Except.error "NewSet: interval must not exceed 30s"
  else
    Except.ok (newLRUState cap (intervalNs / 1000000000).toNat zeroKey)

/-- Modelled from the spec: `NewLRU` accepts any interval representable in
the table's 32-bit seconds unit (at most `2^32 - 1` seconds, the
`1193046h28m15s` of the test) and fails construction beyond that. -/
def NewLRU (cap : Nat) (intervalNs : Int) (zeroKey : Nat) : Except String LRU :=
  if (4294967295 : Int) * 1000000000 < intervalNs then
    Except.error "NewLRU: interval must be <= 1193046h28m15s"
  else
    Except.ok (newLRUState cap (intervalNs / 1000000000).toNat zeroKey)

/-! ### `ccache.bucket` (`apisec/internal/ccache/bucket.go`) -/

/-- `ccache.Item` from `item.go`: key and value of a cache entry, plus the
`deleted` flag set by eviction.  The `node` recency-list pointer is not
needed by any bucket operation modelled here and is omitted. -/
structure Item (K V : Type) where
  key : K
  value : V
  deleted : Bool

/-- `newItem` from `item.go`. -/
def newItem {K V : Type} (key : K) (value : V) : Item K V :=
  ⟨key, value, false⟩

/-- `ccache.bucket` from `bucket.go`: its `lookup` map, modelled as a
function to `Option` (Go map lookups yield the zero value `nil` on a
missing key).  The `sync.RWMutex` disappears in a sequential execution. -/
structure bucket (K V : Type) where
  lookup : K → Option (Item K V)

/-- `bucket.getOrStore` from `bucket.go`, sequentially: return the existing
item if one is present; otherwise build `newItem key (load ())`, bind it in
the map and return it.  (The Go double-check after taking the write lock
re-reads the same map in a sequential execution, so both reads agree.)
Returns the item, the `existed` flag, and the resulting bucket. -/
def getOrStore {K V : Type} [DecidableEq K] (b : bucket K V) (key : K)
    (load : Unit → V) : (Item K V × Bool) × bucket K V :=
  match b.lookup key with
  | some item => ((item, true), b)
  | none =>
    let item := newItem key (load ())
    ((item, false), ⟨fun k => if k = key then some item else b.lookup k⟩)

/-! ### The ccache-based `Sampler` (`apisec/sampler.go`) -/

/-- `Sampler` from `sampler.go`, sequentially.  `times` maps a key hash to
the content of its `*atomic.Int64` timer cell (milliseconds since epoch of
the last accepted sample); `msSinceEpochF` and `timeSince` are the clock
functions stored by `newSampler`; `interval` is in nanoseconds
(`time.Duration`).  The random `seed` plays no role in `DecisionFor` once
the key is hashed, so it is not carried. -/
structure Sampler where
  msSinceEpochF : Unit → Int
  timeSince : Int → Int
  times : Nat → Option Int
  interval : Int

/-- `newSampler` from `sampler.go`: stores the two clock functions and the
interval next to an empty cache. -/
def newSampler (interval : Int) (msSinceEpochF : Unit → Int)
    (timeSince : Int → Int) : Sampler :=
  ⟨msSinceEpochF, timeSince, fun _ => none, interval⟩

/-- `Sampler.DecisionFor` from `sampler.go`, sequentially, for an already
hashed key.  Note the Go body reads `now := msSinceEpoch()` — the
package-level wall-clock function, not the configured `s.msSinceEpoch`
field — so `now` enters as the separate `ambientNowMs` argument here.
`GetOrStore` with a fresh zero timer followed by `CompareAndSwap(0, now)`
stores `now` and yields `true` when the key was absent; otherwise the
decision compares `s.timeSince(last)` with the interval, and the accepting
`CompareAndSwap(last, now)` always succeeds sequentially
(`MoveToFront` only touches recency metadata). -/
def DecisionFor (s : Sampler) (ambientNowMs : Int) (keyHash : Nat) :
    Bool × Sampler :=
  let now := ambientNowMs
  match s.times keyHash with
  | none =>
    (true, { s with times := fun k => if k = keyHash then some now else s.times k })
  | some last =>
    if s.timeSince last < s.interval then (false, s)
    else
      (true, { s with times := fun k => if k = keyHash then some now else s.times k })

/-! ### `SamplingKey.hash` input framing (`apisec/sampler.go`) -/

/-- `SamplingKey` from `sampler.go`.  Go strings are byte sequences, so
`Method` and `Route` are lists of bytes. -/
structure SamplingKey where
  Method : List Nat
  Route : List Nat
  StatusCode : Nat
deriving Repr, DecidableEq

/-- The `n` low-order bytes of `v`, least significant first
(`binary.NativeEndian` on the little-endian platforms this runs on). -/
def leBytes : Nat → Nat → List Nat
  | 0, _ => []
  | n + 1, v => v % 256 :: leBytes n (v / 256)

/-- The byte sequence `SamplingKey.hash` feeds to its FNV-64 hasher, in
`Write` order: the 8 seed bytes, the method bytes, a 0 separator byte, the
route bytes, a 0 separator byte, and the 2 bytes of
`uint16(k.StatusCode)`. -/
def hashInput (seed : Nat) (k : SamplingKey) : List Nat :=
  leBytes 8 seed ++ k.Method ++ [0] ++ k.Route ++ [0] ++
    leBytes 2 (k.StatusCode % 65536)

/-! ## Theorems -/

/-- C7: the packed 64-bit entry word losslessly encodes its two 32-bit
halves, and access-time updates leave the sample time unchanged: for all
uint32 values `a` and `s`, `AccessTime (newEntryData a s) = a` and
`SampleTime (newEntryData a s) = s`; and for every `entryData` word `d` and
uint32 `a2`, `SampleTime (WithAccessTime d a2) = SampleTime d` and
`AccessTime (WithAccessTime d a2) = a2`. -/
theorem entryData_packing (a s d a2 : Nat) (ha : a < u32) (hs : s < u32)
    (ha2 : a2 < u32) :
    AccessTime (newEntryData a s) = a ∧ SampleTime (newEntryData a s) = s ∧
      SampleTime (WithAccessTime d a2) = SampleTime d ∧
      AccessTime (WithAccessTime d a2) = a2 := by
  simp only [newEntryData, AccessTime, SampleTime, WithAccessTime, u32] at *
  refine ⟨?_, ?_, ?_, ?_⟩ <;> omega

/-- Witness for C7 at `a = 7`, `s = 3`, `d = newEntryData 5 9`,
`a2 = 99`. -/
theorem entryData_packing_inst :
    7 < u32 ∧ 3 < u32 ∧ 99 < u32 ∧
      (AccessTime (newEntryData 7 3) = 7 ∧ SampleTime (newEntryData 7 3) = 3 ∧
        SampleTime (WithAccessTime (newEntryData 5 9) 99) =
          SampleTime (newEntryData 5 9) ∧
        AccessTime (WithAccessTime (newEntryData 5 9) 99) = 99) :=
  ⟨by decide, by decide, by decide,
    entryData_packing 7 3 (newEntryData 5 9) 99 (by decide) (by decide)
      (by decide)⟩

/-- C10: `bucket.getOrStore` never overwrites an existing binding: when an
item with the key is present it is returned with `existed = true` and the
bucket is unchanged (the load callback's value is not stored); when the key
is absent, exactly one new item holding `load ()` is bound under the key,
every other key's binding is unchanged, and the new item is returned with
`existed = false`. -/
theorem getOrStore_spec {K V : Type} [DecidableEq K] (b : bucket K V)
    (key : K) (load : Unit → V) :
    (∀ it, b.lookup key = some it → getOrStore b key load = ((it, true), b)) ∧
      (b.lookup key = none →
        (getOrStore b key load).1.1 = newItem key (load ()) ∧
          (getOrStore b key load).1.2 = false ∧
          (getOrStore b key load).2.lookup key = some (newItem key (load ())) ∧
          ∀ k, k ≠ key → (getOrStore b key load).2.lookup k = b.lookup k) := by
  constructor
  · intro it h
    simp [getOrStore, h]
  · intro h
    simp only [getOrStore, h]
    refine ⟨trivial, trivial, by simp, fun k hk => by simp [hk]⟩

/-- Witness for C10 on the one-binding bucket `{3 ↦ 8}` with key `3`
(present: bucket unchanged) and on the same bucket with key `5`
(absent: the loaded value `9` is bound at `5` and `3` keeps its
binding). -/
theorem getOrStore_spec_inst :
    (let b : bucket Nat Nat := ⟨fun k => if k = 3 then some (newItem 3 8) else none⟩
     getOrStore b 3 (fun _ => 9) = ((newItem 3 8, true), b) ∧
       (getOrStore b 5 (fun _ => 9)).1.2 = false ∧
       (getOrStore b 5 (fun _ => 9)).2.lookup 5 = some (newItem 5 9) ∧
       (getOrStore b 5 (fun _ => 9)).2.lookup 3 = some (newItem 3 8)) := by
  refine ⟨(getOrStore_spec _ 3 _).1 (newItem 3 8) (by simp), ?_, ?_, ?_⟩
  · exact ((getOrStore_spec _ 5 (fun _ => 9)).2 (by simp)).2.1
  · exact ((getOrStore_spec _ 5 (fun _ => 9)).2 (by simp)).2.2.1
  · exact (((getOrStore_spec _ 5 (fun _ => 9)).2 (by simp)).2.2.2 3 (by simp))

/-- C6: `NewSet` succeeds exactly for intervals in [1s, 30s] and
`NewLRU` succeeds exactly for intervals of at most `2^32 - 1` seconds
(durations in nanoseconds); runtime `Hit` has no failure path (it is a
total function into `Bool × LRU`). -/
theorem constructor_validation (cap z : Nat) (i : Int) :
    ((∃ d, NewSet cap i z = Except.ok d) ↔
        1000000000 ≤ i ∧ i ≤ 30000000000) ∧
      ((∃ d, NewLRU cap i z = Except.ok d) ↔
        i ≤ 4294967295 * 1000000000) := by
  constructor
  · unfold NewSet
    split
    · next h => simp only [reduceCtorEq, exists_false, false_iff]; omega
    · next h =>
      split
      · next h2 => simp only [reduceCtorEq, exists_false, false_iff]; omega
      · next h2 => simp only [Except.ok.injEq, exists_eq', true_iff]; omega
  · unfold NewLRU
    split
    · next h => simp only [reduceCtorEq, exists_false, false_iff]; omega
    · next h => simp only [Except.ok.injEq, exists_eq', true_iff]; omega

/-- C9 (failing input): `Sampler.DecisionFor` reads its timestamp from the
package-level wall clock (`now := msSinceEpoch()`), not from the configured
`s.msSinceEpoch` field, which is never read.  Two sequential runs from the
same sampler state (fresh sampler, 30s interval, configured clocks
returning 0), with the same key 7 but ambient wall-clock values 1000 and
2000, both decide `true` yet record different last-sample timestamps — the
spec's pluggable-clock contract says time is observed only through the
configured functions. -/
theorem DecisionFor_ambient_clock_dependence :
    (DecisionFor (newSampler 30000000000 (fun _ => 0) (fun _ => 0)) 1000 7).1
        = (DecisionFor (newSampler 30000000000 (fun _ => 0) (fun _ => 0)) 2000 7).1
      ∧ (DecisionFor (newSampler 30000000000 (fun _ => 0) (fun _ => 0)) 1000 7).2.times 7
          = some 1000
      ∧ (DecisionFor (newSampler 30000000000 (fun _ => 0) (fun _ => 0)) 2000 7).2.times 7
          = some 2000
      ∧ (1000 : Int) ≠ 2000 := by
  refine ⟨rfl, rfl, rfl, by decide⟩

/-- C4 (counterexample): the claim quantifies over all `SamplingKey`s, but
Go strings may contain 0x00 bytes, and the 0 separator is then ambiguous:
`("a\x00", "b")` and `("a", "\x00b")` have equal method‖route
concatenations, equal status codes, different `(method, route)` fields, and
feed the *same* byte sequence to the hasher. -/
theorem hashInput_nul_ambiguity :
    hashInput 0 ⟨[97, 0], [98], 200⟩ = hashInput 0 ⟨[97], [0, 98], 200⟩ ∧
      ([97, 0] ++ [98] : List Nat) = [97] ++ [0, 98] ∧
      (200 : Nat) = 200 ∧
      (⟨[97, 0], [98], 200⟩ : SamplingKey) ≠ ⟨[97], [0, 98], 200⟩ := by
  refine ⟨by decide, by decide, rfl, by decide⟩

/-- If two `method ‖ 0 ‖ route ‖ 0 ‖ tail` framings coincide, the shorter
method is the other one, provided the longer method contains no 0 byte
(the separator is then unambiguous). -/
lemma method_eq_of_framing_eq (m1 r1 m2 r2 tail : List Nat) (h0 : 0 ∉ m2)
    (hlen : m1.length ≤ m2.length)
    (heq : m1 ++ 0 :: (r1 ++ 0 :: tail) = m2 ++ 0 :: (r2 ++ 0 :: tail)) :
    m1 = m2 := by
  rcases Nat.lt_or_ge m1.length m2.length with hlt | hge
  · exfalso
    have hdrop := congrArg (List.drop m1.length) heq
    rw [List.drop_left, List.drop_append_of_le_length (Nat.le_of_lt hlt),
      List.drop_eq_getElem_cons hlt] at hdrop
    have hzero : (0 : Nat) = m2[m1.length] := by
      exact (List.cons_eq_cons.mp hdrop).1
    exact h0 (hzero ▸ List.getElem_mem hlt)
  · exact (List.append_inj heq (Nat.le_antisymm hlen hge)).1

/-- C4 (amended): the key hash framing is unambiguous for methods free of
0x00 bytes: if two `SamplingKey`s have equal `method ‖ route` byte
concatenations and equal status codes but different `(method, route)`
fields, and neither method contains a 0 byte, the byte sequences fed to the
hash function differ, because each field is terminated by an explicit
separator byte. -/
theorem hashInput_separates (seed : Nat) (k1 k2 : SamplingKey)
    (h01 : 0 ∉ k1.Method) (h02 : 0 ∉ k2.Method)
    (_hcat : k1.Method ++ k1.Route = k2.Method ++ k2.Route)
    (hst : k1.StatusCode = k2.StatusCode)
    (hne : ¬(k1.Method = k2.Method ∧ k1.Route = k2.Route)) :
    hashInput seed k1 ≠ hashInput seed k2 := by
  intro h
  unfold hashInput at h
  rw [hst] at h
  have h2 := List.append_cancel_left (by simpa [List.append_assoc] using h :
    leBytes 8 seed ++ (k1.Method ++ 0 :: (k1.Route ++ 0 :: leBytes 2 (k2.StatusCode % 65536)))
      = leBytes 8 seed ++ (k2.Method ++ 0 :: (k2.Route ++ 0 :: leBytes 2 (k2.StatusCode % 65536))))
  have hm : k1.Method = k2.Method := by
    rcases Nat.le_total k1.Method.length k2.Method.length with hle | hle
    · exact method_eq_of_framing_eq _ _ _ _ _ h02 hle h2
    · exact (method_eq_of_framing_eq _ _ _ _ _ h01 hle h2.symm).symm
  have hr : k1.Route = k2.Route := by
    rw [hm] at h2
    have h3 := List.cons_eq_cons.mp (List.append_cancel_left h2)
    exact List.append_cancel_right h3.2
  exact hne ⟨hm, hr⟩

/-- Witness for C4 (amended) at `k1 = ("G", "a", 200)`,
`k2 = ("Ga", "", 200)`: equal concatenations, different fields, no 0
bytes, and the framed byte sequences indeed differ. -/
theorem hashInput_separates_inst :
    (0 : Nat) ∉ [(71 : Nat)] ∧ (0 : Nat) ∉ [(71 : Nat), 97] ∧
      ([71] ++ [97] : List Nat) = [71, 97] ++ [] ∧
      hashInput 5 ⟨[71], [97], 200⟩ ≠ hashInput 5 ⟨[71, 97], [], 200⟩ :=
  ⟨by decide, by decide, by decide,
    hashInput_separates 5 ⟨[71], [97], 200⟩ ⟨[71, 97], [], 200⟩ (by decide)
      (by decide) (by decide) rfl (by decide)⟩

/-- The index probed at step `i` of `FindEntry`'s linear probe for `key`:
`(key mod cap + i) mod cap`. -/
def probeIdx (cap key i : Nat) : Nat :=
  (key % cap + i) % cap

/-- The key stored at probe step `i`. -/
def probeKey (t : table) (cap key i : Nat) : Nat :=
  (t.entries.getD (probeIdx cap key i) default).Key

/-- Probe step `i` stops the probe loop: the slot is free or holds the
key. -/
def probeStops (t : table) (cap key i : Nat) : Prop :=
  probeKey t cap key i = 0 ∨ probeKey t cap key i = key

instance (t : table) (cap key i : Nat) : Decidable (probeStops t cap key i) := by
  unfold probeStops; infer_instance

/-- The loop result stays within `[0, cap]` when started in range. -/
lemma findEntryLoop_le (entries : List entry) (cap key : Nat)
    (hcap : 0 < cap) :
    ∀ fuel idx, idx < cap → (findEntryLoop entries cap key fuel idx).1 ≤ cap := by
  intro fuel
  induction fuel with
  | zero => intro idx _; simp [findEntryLoop]
  | succ n ih =>
    intro idx hidx
    simp only [findEntryLoop]
    split
    · exact Nat.le_of_lt hidx
    · exact ih _ (Nat.mod_lt _ hcap)

/-- If no probe step in the window stops the loop, the fuel runs out and the
overflow slot is returned. -/
lemma findEntryLoop_miss (t : table) (cap key : Nat) (_hcap : 0 < cap) :
    ∀ fuel k, (∀ j, k ≤ j → j < k + fuel → ¬probeStops t cap key j) →
      findEntryLoop t.entries cap key fuel (probeIdx cap key k) = (cap, true) := by
  intro fuel
  induction fuel with
  | zero => intro k _; simp [findEntryLoop]
  | succ n ih =>
    intro k hmiss
    simp only [findEntryLoop]
    split
    · next hstop =>
      exact absurd hstop (hmiss k (Nat.le_refl k) (by omega))
    · have hnext : (probeIdx cap key k + 1) % cap = probeIdx cap key (k + 1) := by
        unfold probeIdx
        rw [Nat.mod_add_mod, Nat.add_assoc]
      rw [hnext]
      exact ih (k + 1) (fun j h1 h2 => hmiss j (by omega) (by omega))

/-- If probe step `i` stops the loop and no earlier step in the window does,
the loop returns the slot of step `i` together with the key-match flag. -/
lemma findEntryLoop_hit (t : table) (cap key : Nat) (_hcap : 0 < cap) :
    ∀ fuel k i, k ≤ i → i < k + fuel → probeStops t cap key i →
      (∀ j, k ≤ j → j < i → ¬probeStops t cap key j) →
      findEntryLoop t.entries cap key fuel (probeIdx cap key k) =
        (probeIdx cap key i, probeKey t cap key i == key) := by
  intro fuel
  induction fuel with
  | zero => intro k i h1 h2; omega
  | succ n ih =>
    intro k i h1 h2 hstop hfirst
    rcases Nat.eq_or_lt_of_le h1 with heq | hlt
    · subst heq
      simp only [findEntryLoop]
      split
      · rfl
      · next hn => exact absurd hstop hn
    · simp only [findEntryLoop]
      split
      · next hs => exact absurd hs (hfirst k (Nat.le_refl k) hlt)
      · have hnext : (probeIdx cap key k + 1) % cap = probeIdx cap key (k + 1) := by
          unfold probeIdx
          rw [Nat.mod_add_mod, Nat.add_assoc]
        rw [hnext]
        exact ih (k + 1) i hlt (by omega) hstop
          (fun j hj1 hj2 => hfirst j (by omega) hj2)

/-- Probe step 0 starts at `key % cap`. -/
lemma probeIdx_zero (cap key : Nat) : probeIdx cap key 0 = key % cap := by
  unfold probeIdx
  rw [Nat.add_zero, Nat.mod_mod_of_dvd _ dvd_rfl]

/-- C3: `FindEntry key` probes linearly from `key mod cap`, wrapping modulo
`cap`, and (a) always returns an index within `[0, cap]`; (b) when step `i`
is the first probe step whose slot is free or holds `key`, it returns that
slot's index with a flag that is true exactly when the stored key equals
`key`; (c) when all `cap` probed slots hold other non-zero keys, it returns
the reserved overflow slot `cap` with `true`. -/
theorem FindEntry_probe_spec (cap : Nat) (t : table) (key : Nat)
    (hcap : 0 < cap) :
    (FindEntry cap t key).1 ≤ cap ∧
      (∀ i, i < cap → probeStops t cap key i →
        (∀ j, j < i → ¬probeStops t cap key j) →
        FindEntry cap t key =
          (probeIdx cap key i, probeKey t cap key i == key)) ∧
      ((∀ i, i < cap → ¬probeStops t cap key i) →
        FindEntry cap t key = (cap, true)) := by
  refine ⟨findEntryLoop_le t.entries cap key hcap cap _ (Nat.mod_lt _ hcap),
    ?_, ?_⟩
  · intro i hi hstop hfirst
    have := findEntryLoop_hit t cap key hcap cap 0 i (Nat.zero_le i)
      (by omega) hstop (fun j _ hj => hfirst j hj)
    rwa [probeIdx_zero] at this
  · intro hmiss
    have := findEntryLoop_miss t cap key hcap cap 0
      (fun j _ hj => hmiss j (by omega))
    rwa [probeIdx_zero] at this

/-- Witness for C3 on a capacity-4 table holding keys 5, 6, 9, 8: the probe
for key 9 starts at slot 1 and stops at slot 2 where 9 is stored, and the
probe for key 7 goes full circle and lands on the overflow slot. -/
theorem FindEntry_probe_spec_inst :
    (0 < 4 ∧
      FindEntry 4 ⟨[⟨5, 0⟩, ⟨6, 0⟩, ⟨9, 3⟩, ⟨8, 0⟩, ⟨0, 0⟩], 4⟩ 9 = (2, true)) ∧
      FindEntry 4 ⟨[⟨5, 0⟩, ⟨6, 0⟩, ⟨9, 3⟩, ⟨8, 0⟩, ⟨0, 0⟩], 4⟩ 7 = (4, true) := by
  constructor
  · refine ⟨by decide, ?_⟩
    have h := (FindEntry_probe_spec 4 ⟨[⟨5, 0⟩, ⟨6, 0⟩, ⟨9, 3⟩, ⟨8, 0⟩, ⟨0, 0⟩], 4⟩ 9
      (by decide)).2.1 1 (by decide) (by decide) (by decide)
    simpa using h
  · exact (FindEntry_probe_spec 4 ⟨[⟨5, 0⟩, ⟨6, 0⟩, ⟨9, 3⟩, ⟨8, 0⟩, ⟨0, 0⟩], 4⟩ 7
      (by decide)).2.2 (by decide)

/-! ### Sequential traces of `Hit` for a single key -/

/-- Running `Hit` for one `key` at each clock value of `times` in turn,
collecting the decisions and the final state. -/
def hitTrace (cap key : Nat) : LRU → List Nat → List Bool × LRU
  | d, [] => ([], d)
  | d, now :: rest =>
    let r := Hit cap d now key
    let t := hitTrace cap key r.2 rest
    (r.1 :: t.1, t.2)

/-- The spec's interval rule (§8 "Interval enforcement"), written from the
spec's words for the refinement statement: with `last` the time of the last
accepted sample, a call at `now` is accepted exactly when
`now - last ≥ interval`, and acceptance resets `last` to `now`. -/
def specHitsFrom (interval : Nat) : Nat → List Nat → List Bool
  | _, [] => []
  | last, now :: rest =>
    if interval ≤ now - last then true :: specHitsFrom interval now rest
    else false :: specHitsFrom interval last rest

/-- The spec's interval rule: the last accepted time after a call
sequence. -/
def specLastFrom (interval : Nat) : Nat → List Nat → Nat
  | last, [] => last
  | last, now :: rest =>
    if interval ≤ now - last then specLastFrom interval now rest
    else specLastFrom interval last rest

/-- The spec's interval rule for a fresh key: the first call is accepted,
and the rest follow `specHitsFrom` from that first instant. -/
def specHits (interval : Nat) : List Nat → List Bool
  | [] => []
  | t0 :: rest => true :: specHitsFrom interval t0 rest

/-- The spec's interval rule: last accepted time over a whole fresh-key
call sequence. -/
def specLast (interval : Nat) : List Nat → Nat
  | [] => 0
  | t0 :: rest => specLastFrom interval t0 rest

/-- A deduplicator state whose table holds exactly one live entry: key `k`
in its home slot `k % cap`, with access time `acc` and sample time
`last`. -/
def oneKeyState (cap ι z k last acc : Nat) : LRU :=
  ⟨⟨(List.replicate (cap + 1) (default : entry)).set (k % cap)
      ⟨k, newEntryData acc last⟩, 1⟩, ι, z⟩

lemma SampleTime_newEntryData (a s : Nat) (hs : s < u32) :
    SampleTime (newEntryData a s) = s := by
  simp only [SampleTime, newEntryData, u32] at *
  omega

lemma WithAccessTime_newEntryData (a s n : Nat) (hs : s < u32) :
    WithAccessTime (newEntryData a s) n = newEntryData n s := by
  simp only [WithAccessTime, newEntryData, u32] at *
  omega

lemma getD_set_replicate (cap i : Nat) (a : entry) (hi : i < cap + 1) :
    ((List.replicate (cap + 1) (default : entry)).set i a).getD i default = a := by
  have hlen : i < (List.replicate (cap + 1) (default : entry)).length := by
    simpa using hi
  rw [List.getD_eq_getElem?_getD, List.getElem?_set_self hlen]
  rfl

lemma getD_replicate (cap i : Nat) :
    (List.replicate (cap + 1) (default : entry)).getD i default = default := by
  rcases Nat.lt_or_ge i (cap + 1) with h | h
  · rw [List.getD_eq_getElem?_getD, List.getElem?_replicate]
    simp [h]
  · rw [List.getD_eq_getElem?_getD,
      List.getElem?_eq_none (by simpa using h)]
    rfl

/-- `FindEntry` on the one-key table finds the key immediately in its home
slot. -/
lemma FindEntry_oneKey (cap ι z k last acc : Nat) (hcap : 0 < cap)
    (_hk : k ≠ 0) :
    FindEntry cap (oneKeyState cap ι z k last acc).tbl k = (k % cap, true) := by
  have hmod : k % cap < cap := Nat.mod_lt _ hcap
  have hkey : probeKey (oneKeyState cap ι z k last acc).tbl cap k 0 = k := by
    unfold probeKey
    rw [probeIdx_zero]
    show (((List.replicate (cap + 1) (default : entry)).set (k % cap) _).getD
      (k % cap) default).Key = k
    rw [getD_set_replicate cap _ _ (by omega)]
  have hstop : probeStops (oneKeyState cap ι z k last acc).tbl cap k 0 :=
    Or.inr hkey
  have h := findEntryLoop_hit (oneKeyState cap ι z k last acc).tbl cap k hcap
    cap 0 0 (Nat.le_refl 0) (by omega) hstop (by omega)
  rw [probeIdx_zero] at h
  unfold FindEntry
  rw [h, hkey]
  simp

/-- `FindEntry` on the fresh table claims the free home slot. -/
lemma FindEntry_fresh (cap ι z k : Nat) (hcap : 0 < cap) (hk : k ≠ 0) :
    FindEntry cap (newLRUState cap ι z).tbl k = (k % cap, false) := by
  have hkey : probeKey (newLRUState cap ι z).tbl cap k 0 = 0 := by
    unfold probeKey
    rw [probeIdx_zero]
    show (((List.replicate (cap + 1) (default : entry))).getD
      (k % cap) default).Key = 0
    rw [getD_replicate]
    rfl
  have hstop : probeStops (newLRUState cap ι z).tbl cap k 0 := Or.inl hkey
  have h := findEntryLoop_hit (newLRUState cap ι z).tbl cap k hcap
    cap 0 0 (Nat.le_refl 0) (by omega) hstop (by omega)
  rw [probeIdx_zero] at h
  unfold FindEntry
  rw [h, hkey]
  simpa using (Ne.symm hk)

/-- The first `Hit` for a fresh non-zero key claims the home slot, records
`now` as both access and sample time, and accepts. -/
lemma Hit_fresh (cap ι z k now : Nat) (hcap : 0 < cap) (hk : k ≠ 0) :
    Hit cap (newLRUState cap ι z) now k = (true, oneKeyState cap ι z k now now) := by
  have hfe := FindEntry_fresh cap ι z k hcap hk
  simp only [Hit, if_neg hk, hfe, Bool.false_eq_true, if_false]
  have hcount : (storeEntry (newLRUState cap ι z).tbl (k % cap)
      ⟨k, newEntryData now now⟩).count + 1 = 1 := rfl
  simp only [maybeRebuild, storeEntry, newLRUState, emptyTable, oneKeyState]
  rw [if_neg (by omega : ¬cap < 0 + 1)]

/-- A `Hit` for key `k` on the one-key state: accepted exactly when
`now - last ≥ interval`; acceptance rewrites both halves to `now`,
rejection only bumps the access time. -/
lemma Hit_oneKey (cap ι z k last acc now : Nat) (hcap : 0 < cap)
    (hk : k ≠ 0) (hlast : last < u32) :
    Hit cap (oneKeyState cap ι z k last acc) now k =
      if ι ≤ now - last then (true, oneKeyState cap ι z k now now)
      else (false, oneKeyState cap ι z k last now) := by
  have hfe := FindEntry_oneKey cap ι z k last acc hcap hk
  have hmod : k % cap < cap := Nat.mod_lt _ hcap
  have hslot : (oneKeyState cap ι z k last acc).tbl.entries.getD (k % cap) default
      = ⟨k, newEntryData acc last⟩ :=
    getD_set_replicate cap _ _ (by omega)
  simp only [Hit, if_neg hk, hfe, if_true, hslot,
    SampleTime_newEntryData acc last hlast]
  split
  · next h =>
    rw [if_pos (show ι ≤ now - last from h)]
    simp only [oneKeyState, storeEntry]
    rw [List.set_set]
  · next h =>
    rw [if_neg (show ¬ι ≤ now - last from h)]
    simp only [oneKeyState, storeEntry,
      WithAccessTime_newEntryData acc last now hlast]
    rw [List.set_set]

/-- The one-key trace refines the spec's interval rule: the decisions are
exactly `specHitsFrom`, and the final state is the one-key state whose
sample time is `specLastFrom`. -/
lemma hitTrace_oneKey (cap ι z k : Nat) (hcap : 0 < cap) (hk : k ≠ 0) :
    ∀ times last acc, last < u32 → (∀ t ∈ times, t < u32) →
      (hitTrace cap k (oneKeyState cap ι z k last acc) times).1 =
          specHitsFrom ι last times ∧
        ∃ a2, (hitTrace cap k (oneKeyState cap ι z k last acc) times).2 =
          oneKeyState cap ι z k (specLastFrom ι last times) a2 := by
  intro times
  induction times with
  | nil =>
    intro last acc hlast _
    exact ⟨rfl, acc, rfl⟩
  | cons now rest ih =>
    intro last acc hlast hts
    have hnow : now < u32 := hts now (List.mem_cons_self now rest)
    have hrest : ∀ t ∈ rest, t < u32 := fun t ht =>
      hts t (List.mem_cons_of_mem now ht)
    simp only [hitTrace, Hit_oneKey cap ι z k last acc now hcap hk hlast]
    by_cases h : ι ≤ now - last
    · simp only [if_pos h, specHitsFrom, specLastFrom]
      obtain ⟨h1, a2, h2⟩ := ih now now hnow hrest
      exact ⟨by rw [h1], a2, h2⟩
    · simp only [if_neg h, specHitsFrom, specLastFrom]
      obtain ⟨h1, a2, h2⟩ := ih last now hlast hrest
      exact ⟨by rw [h1], a2, h2⟩

lemma specLastFrom_lt (ι : Nat) :
    ∀ times last, last < u32 → (∀ t ∈ times, t < u32) →
      specLastFrom ι last times < u32 := by
  intro times
  induction times with
  | nil => intro last h _; exact h
  | cons now rest ih =>
    intro last hlast hts
    have hnow : now < u32 := hts now (List.mem_cons_self now rest)
    have hrest : ∀ t ∈ rest, t < u32 := fun t ht =>
      hts t (List.mem_cons_of_mem now ht)
    simp only [specLastFrom]
    by_cases h : ι ≤ now - last
    · rw [if_pos h]; exact ih now hnow hrest
    · rw [if_neg h]; exact ih last hlast hrest

/-- C1: interval enforcement for a single key, sequentially, with a
controllable clock: starting from a fresh deduplicator, the decisions of
`Hit` for one key are exactly those of the spec's interval rule — true
first, false while `now - lastAccepted < interval`, true again as soon as
`now - lastAccepted ≥ interval` — and the recorded sample time of the key's
slot is the interval rule's last accepted time. -/
theorem Hit_interval_enforcement (cap ι z k : Nat) (times : List Nat)
    (hcap : 0 < cap) (hk : k ≠ 0) (hts : ∀ t ∈ times, t < u32) :
    (hitTrace cap k (newLRUState cap ι z) times).1 = specHits ι times ∧
      (times ≠ [] →
        SampleTime (((hitTrace cap k (newLRUState cap ι z) times).2.tbl.entries.getD
          (k % cap) default).Data) = specLast ι times) := by
  cases times with
  | nil => exact ⟨rfl, fun h => absurd rfl h⟩
  | cons t0 rest =>
    have ht0 : t0 < u32 := hts t0 (List.mem_cons_self t0 rest)
    have hrest : ∀ t ∈ rest, t < u32 := fun t ht =>
      hts t (List.mem_cons_of_mem t0 ht)
    obtain ⟨h1, a2, h2⟩ := hitTrace_oneKey cap ι z k hcap hk rest t0 t0 ht0 hrest
    simp only [hitTrace, Hit_fresh cap ι z k t0 hcap hk]
    constructor
    · simp only [specHits, h1]
    · intro _
      rw [h2]
      simp only [specLast, oneKeyState]
      have hmod : k % cap < cap := Nat.mod_lt _ hcap
      rw [getD_set_replicate cap _ _ (by omega)]
      exact SampleTime_newEntryData a2 _ (specLastFrom_lt ι rest t0 ht0 hrest)

/-- Witness for C1: capacity 4, interval 30, key 9, clock 100, 101, 129,
130: decisions true, false, false, true and recorded sample time 130. -/
theorem Hit_interval_enforcement_inst :
    (0 < 4 ∧ (9 : Nat) ≠ 0 ∧ ∀ t ∈ [100, 101, 129, 130], t < u32) ∧
      (hitTrace 4 9 (newLRUState 4 30 7) [100, 101, 129, 130]).1 =
        specHits 30 [100, 101, 129, 130] ∧
      specHits 30 [100, 101, 129, 130] = [true, false, false, true] := by
  refine ⟨⟨by decide, by decide, by decide⟩, ?_, by decide⟩
  exact (Hit_interval_enforcement 4 30 7 9 [100, 101, 129, 130] (by decide)
    (by decide) (by decide)).1

/-- A `Hit` for key 0 is exactly a `Hit` for the state's reserved
placeholder key: the remap is the only use of the key before the table is
consulted. -/
lemma Hit_zero (cap : Nat) (d : LRU) (now z : Nat) (hd : d.zeroKey = z) :
    Hit cap d now 0 = Hit cap d now z := by
  subst hd
  simp [Hit, ite_self]

/-- The one-key trace for key 0 on a table whose live entry is the
placeholder `z`: same decisions and final state as the trace for `z`. -/
lemma hitTrace_zero_oneKey (cap ι z : Nat) (hcap : 0 < cap) (hz : z ≠ 0) :
    ∀ times last acc, last < u32 → (∀ t ∈ times, t < u32) →
      (hitTrace cap 0 (oneKeyState cap ι z z last acc) times).1 =
          specHitsFrom ι last times ∧
        ∃ a2, (hitTrace cap 0 (oneKeyState cap ι z z last acc) times).2 =
          oneKeyState cap ι z z (specLastFrom ι last times) a2 := by
  intro times
  induction times with
  | nil =>
    intro last acc hlast _
    exact ⟨rfl, acc, rfl⟩
  | cons now rest ih =>
    intro last acc hlast hts
    have hnow : now < u32 := hts now (List.mem_cons_self now rest)
    have hrest : ∀ t ∈ rest, t < u32 := fun t ht =>
      hts t (List.mem_cons_of_mem now ht)
    simp only [hitTrace, Hit_zero cap (oneKeyState cap ι z z last acc) now z rfl,
      Hit_oneKey cap ι z z last acc now hcap hz hlast]
    by_cases h : ι ≤ now - last
    · simp only [if_pos h, specHitsFrom, specLastFrom]
      obtain ⟨h1, a2, h2⟩ := ih now now hnow hrest
      exact ⟨by rw [h1], a2, h2⟩
    · simp only [if_neg h, specHitsFrom, specLastFrom]
      obtain ⟨h1, a2, h2⟩ := ih last now hlast hrest
      exact ⟨by rw [h1], a2, h2⟩

/-- C5: zero-hash keys behave like any other key: with the reserved
placeholder `z ≠ 0` chosen at construction, the `Hit` decisions for key 0
follow the same interval rule as a fresh key, and no slot of the resulting
table ever has data stored under the empty-slot sentinel `Key = 0`. -/
theorem Hit_zero_key_handling (cap ι z : Nat) (times : List Nat)
    (hcap : 0 < cap) (hz : z ≠ 0) (hts : ∀ t ∈ times, t < u32) :
    (hitTrace cap 0 (newLRUState cap ι z) times).1 = specHits ι times ∧
      ∀ e ∈ (hitTrace cap 0 (newLRUState cap ι z) times).2.tbl.entries,
        e.Key = 0 → e.Data = 0 := by
  cases times with
  | nil =>
    refine ⟨rfl, fun e he h0 => ?_⟩
    have : e = default := List.eq_of_mem_replicate he
    rw [this]
    rfl
  | cons t0 rest =>
    have ht0 : t0 < u32 := hts t0 (List.mem_cons_self t0 rest)
    have hrest : ∀ t ∈ rest, t < u32 := fun t ht =>
      hts t (List.mem_cons_of_mem t0 ht)
    obtain ⟨h1, a2, h2⟩ := hitTrace_zero_oneKey cap ι z hcap hz rest t0 t0 ht0 hrest
    simp only [hitTrace, Hit_zero cap (newLRUState cap ι z) t0 z rfl,
      Hit_fresh cap ι z z t0 hcap hz]
    refine ⟨by simp only [specHits, h1], ?_⟩
    rw [h2]
    intro e he h0
    simp only [oneKeyState] at he
    rcases List.mem_or_eq_of_mem_set he with hmem | heq
    · have : e = default := List.eq_of_mem_replicate hmem
      rw [this]
      rfl
    · exfalso
      rw [heq] at h0
      exact hz h0

/-- Witness for C5: capacity 4, interval 30, placeholder 42, key 0, clock
100, 120, 130: decisions true, false, true, and no slot keyed 0 carries
data. -/
theorem Hit_zero_key_handling_inst :
    (0 < 4 ∧ (42 : Nat) ≠ 0 ∧ ∀ t ∈ [100, 120, 130], t < u32) ∧
      (hitTrace 4 0 (newLRUState 4 30 42) [100, 120, 130]).1 =
        specHits 30 [100, 120, 130] ∧
      specHits 30 [100, 120, 130] = [true, false, true] := by
  refine ⟨⟨by decide, by decide, by decide⟩, ?_, by decide⟩
  exact (Hit_zero_key_handling 4 30 42 [100, 120, 130] (by decide) (by decide)
    (by decide)).1

/-! ### Entry-data arithmetic and heap-pop facts -/

lemma newEntryData_lt (a s : Nat) : newEntryData a s < u64 := by
  simp only [newEntryData, u32, u64]; omega

lemma AccessTime_newEntryData (a s : Nat) :
    AccessTime (newEntryData a s) = a % u32 := by
  simp only [AccessTime, newEntryData, u32]; omega

lemma SampleTime_newEntryData_mod (a s : Nat) :
    SampleTime (newEntryData a s) = s % u32 := by
  simp only [SampleTime, newEntryData, u32]; omega

lemma WithAccessTime_lt (d n : Nat) : WithAccessTime d n < u64 := by
  simp only [WithAccessTime, u32, u64]; omega

lemma SampleTime_WithAccessTime (d n : Nat) :
    SampleTime (WithAccessTime d n) = SampleTime d := by
  simp only [SampleTime, WithAccessTime, u32]; omega

lemma AccessTime_WithAccessTime (d n : Nat) :
    AccessTime (WithAccessTime d n) = n % u32 := by
  simp only [AccessTime, WithAccessTime, u32]; omega

lemma popMax_eq_none (l : List entry) : popMax l = none ↔ l = [] := by
  cases l with
  | nil => simp [popMax]
  | cons e rest =>
    cases hx : popMax rest with
    | none => simp [popMax, hx]
    | some p =>
      obtain ⟨m, rest1⟩ := p
      simp only [popMax, hx]
      split <;> simp

/-- `popMax` removes one element: the input is a permutation of the popped
element consed onto the remainder. -/
lemma popMax_perm :
    ∀ l e rest, popMax l = some (e, rest) → List.Perm l (e :: rest) := by
  intro l
  induction l with
  | nil => intro e rest h; simp [popMax] at h
  | cons x xs ih =>
    intro e rest h
    cases hx : popMax xs with
    | none =>
      simp only [popMax, hx, Option.some.injEq, Prod.mk.injEq] at h
      obtain ⟨he, hr⟩ := h
      rw [← he, ← hr]
      have hxs : xs = [] := (popMax_eq_none xs).mp hx
      rw [hxs]
    | some p =>
      obtain ⟨m, rest1⟩ := p
      have hperm := ih m rest1 hx
      simp only [popMax, hx] at h
      split at h
      · next hlt =>
        simp only [Option.some.injEq, Prod.mk.injEq] at h
        obtain ⟨he, hr⟩ := h
        rw [← he, ← hr]
        exact (hperm.cons x).trans (List.Perm.swap m x rest1)
      · next hge =>
        simp only [Option.some.injEq, Prod.mk.injEq] at h
        obtain ⟨he, hr⟩ := h
        rw [← he, ← hr]

/-- `popMax` pops a most-recent element: everything left has an access time
no larger. -/
lemma popMax_max :
    ∀ l e rest, popMax l = some (e, rest) →
      ∀ y ∈ rest, AccessTime y.Data ≤ AccessTime e.Data := by
  intro l
  induction l with
  | nil => intro e rest h; simp [popMax] at h
  | cons x xs ih =>
    intro e rest h
    cases hx : popMax xs with
    | none =>
      simp only [popMax, hx, Option.some.injEq, Prod.mk.injEq] at h
      obtain ⟨he, hr⟩ := h
      intro y hy
      rw [← hr] at hy
      simp at hy
    | some p =>
      obtain ⟨m, rest1⟩ := p
      simp only [popMax, hx] at h
      split at h
      · next hlt =>
        simp only [Option.some.injEq, Prod.mk.injEq] at h
        obtain ⟨he, hr⟩ := h
        intro y hy
        rw [← hr] at hy
        rw [← he]
        rcases List.mem_cons.mp hy with rfl | hy1
        · exact Nat.le_of_lt hlt
        · exact ih m rest1 hx y hy1
      · next hge =>
        simp only [Option.some.injEq, Prod.mk.injEq] at h
        obtain ⟨he, hr⟩ := h
        intro y hy
        rw [← hr] at hy
        rw [← he]
        have hperm := popMax_perm xs m rest1 hx
        rcases List.mem_cons.mp ((hperm.mem_iff).mp hy) with h1 | h1
        · rw [h1]
          exact Nat.le_of_not_lt hge
        · exact Nat.le_trans (ih m rest1 hx y h1) (Nat.le_of_not_lt hge)

/-! ### The `sampleTime ≤ accessTime` invariant (C8) -/

/-- The strengthened invariant: every live slot of the entry list holds a
well-formed packed word whose sample time is at most its access time, which
is at most the latest clock value `T`. -/
def entriesInv (l : List entry) (T : Nat) : Prop :=
  ∀ e ∈ l, e.Key ≠ 0 →
    e.Data < u64 ∧ SampleTime e.Data ≤ AccessTime e.Data ∧
      AccessTime e.Data ≤ T

lemma entriesInv_mono {l : List entry} {T T' : Nat} (h : entriesInv l T)
    (hle : T ≤ T') : entriesInv l T' :=
  fun e he hk => ⟨(h e he hk).1, (h e he hk).2.1,
    Nat.le_trans (h e he hk).2.2 hle⟩

lemma entriesInv_empty (cap T : Nat) :
    entriesInv (emptyTable cap).entries T := by
  intro e he hk
  exact absurd (congrArg entry.Key (List.eq_of_mem_replicate he)) hk

lemma entriesInv_set {l : List entry} {T : Nat} (idx : Nat) (e : entry)
    (h : entriesInv l T)
    (he : e.Key ≠ 0 → e.Data < u64 ∧ SampleTime e.Data ≤ AccessTime e.Data ∧
      AccessTime e.Data ≤ T) :
    entriesInv (l.set idx e) T := by
  intro x hx hk
  rcases List.mem_or_eq_of_mem_set hx with hmem | rfl
  · exact h x hmem hk
  · exact he hk

/-- The slot read by `getD` satisfies the invariant when it is live. -/
lemma entriesInv_getD {l : List entry} {T : Nat} (idx : Nat)
    (h : entriesInv l T) (hk : (l.getD idx default).Key ≠ 0) :
    (l.getD idx default).Data < u64 ∧
      SampleTime (l.getD idx default).Data ≤ AccessTime (l.getD idx default).Data ∧
      AccessTime (l.getD idx default).Data ≤ T := by
  rcases Nat.lt_or_ge idx l.length with hlt | hge
  · have hmem : l.getD idx default ∈ l := by
      rw [List.getD_eq_getElem?_getD, List.getElem?_eq_getElem hlt]
      exact List.getElem_mem hlt
    exact h _ hmem hk
  · exfalso
    rw [List.getD_eq_getElem?_getD, List.getElem?_eq_none hge] at hk
    exact hk rfl

/-- Provenance of `pruneLoop`: every slot of the result comes from the
start table or from the candidate list. -/
lemma pruneLoop_mem (cap : Nat) :
    ∀ fuel t cands count x,
      x ∈ (pruneLoop cap fuel t cands count).1.entries →
        x ∈ t.entries ∨ x ∈ cands := by
  intro fuel
  induction fuel with
  | zero => intro t cands count x hx; exact Or.inl hx
  | succ n ih =>
    intro t cands count x hx
    simp only [pruneLoop] at hx
    split at hx
    · cases hp : popMax cands with
      | none => rw [hp] at hx; exact Or.inl hx
      | some p =>
        obtain ⟨e, rest⟩ := p
        rw [hp] at hx
        rcases ih _ _ _ x hx with h1 | h1
        · rcases List.mem_or_eq_of_mem_set h1 with h2 | h2
          · exact Or.inl h2
          · rw [h2]
            exact Or.inr ((popMax_perm cands e rest hp).mem_iff.mpr
              (List.mem_cons_self e rest))
        · exact Or.inr ((popMax_perm cands e rest hp).mem_iff.mpr
            (List.mem_cons_of_mem e h1))
    · exact Or.inl hx

/-- `PrunedCopy` preserves the invariant: every live slot of the copy is a
candidate of the original, whose data is copied unchanged. -/
lemma entriesInv_PrunedCopy {t : table} {T : Nat} (cap threshold : Nat)
    (h : entriesInv t.entries T) :
    entriesInv (PrunedCopy cap t threshold).entries T := by
  intro x hx hk
  have hx2 : x ∈ (pruneLoop cap (candidates t threshold).length (emptyTable cap)
      (candidates t threshold) 0).1.entries := hx
  rcases pruneLoop_mem cap _ _ _ _ x hx2 with h1 | h1
  · exact absurd (congrArg entry.Key (List.eq_of_mem_replicate h1)) hk
  · exact h x (List.mem_of_mem_filter h1) hk

lemma entriesInv_maybeRebuild (cap : Nat) (d : LRU) (now : Nat)
    (h : entriesInv d.tbl.entries now) :
    entriesInv (maybeRebuild cap d now).tbl.entries now := by
  unfold maybeRebuild
  split
  · exact entriesInv_PrunedCopy cap _ h
  · exact h

/-- One `Hit` step preserves the invariant, with the clock advanced to
`now`. -/
lemma Hit_entriesInv (cap : Nat) (d : LRU) (now key T : Nat)
    (hinv : entriesInv d.tbl.entries T) (hT : T ≤ now) (hnow : now < u32) :
    entriesInv (Hit cap d now key).2.tbl.entries now := by
  have hinv2 : entriesInv d.tbl.entries now := entriesInv_mono hinv hT
  simp only [Hit]
  generalize (if key = 0 then d.zeroKey else key) = k2
  split
  · split
    · -- accepted: both halves rewritten to now
      apply entriesInv_set _ _ hinv2
      intro _
      refine ⟨newEntryData_lt now now, ?_, ?_⟩
      · rw [SampleTime_newEntryData_mod, AccessTime_newEntryData]
      · rw [AccessTime_newEntryData]
        exact Nat.le_of_eq (Nat.mod_eq_of_lt hnow)
    · -- rejected: only the access half is bumped
      apply entriesInv_set _ _ hinv2
      intro hk0
      have hs := entriesInv_getD _ hinv hk0
      refine ⟨WithAccessTime_lt _ _, ?_, ?_⟩
      · rw [SampleTime_WithAccessTime, AccessTime_WithAccessTime,
          Nat.mod_eq_of_lt hnow]
        exact Nat.le_trans hs.2.1 (Nat.le_trans hs.2.2 hT)
      · rw [AccessTime_WithAccessTime]
        exact Nat.le_of_eq (Nat.mod_eq_of_lt hnow)
  · -- fresh insert, then the possible rebuild
    apply entriesInv_maybeRebuild
    apply entriesInv_set _ _ hinv2
    intro _
    refine ⟨newEntryData_lt now now, ?_, ?_⟩
    · rw [SampleTime_newEntryData_mod, AccessTime_newEntryData]
    · rw [AccessTime_newEntryData]
      exact Nat.le_of_eq (Nat.mod_eq_of_lt hnow)

/-- The deduplicator states reachable by sequential `Hit` calls under a
non-decreasing clock whose values fit the 32-bit seconds unit; the `Nat`
component is the time of the latest call. -/
inductive Reach (cap : Nat) : LRU → Nat → Prop
  | init (ι z : Nat) : Reach cap (newLRUState cap ι z) 0
  | step (d : LRU) (T now key : Nat) : Reach cap d T → T ≤ now →
      now < u32 → Reach cap (Hit cap d now key).2 now

lemma Reach_entriesInv (cap : Nat) (d : LRU) (T : Nat)
    (h : Reach cap d T) : entriesInv d.tbl.entries T := by
  induction h with
  | init ι z => exact entriesInv_empty cap 0
  | step d T now key hr hT hnow ih => exact Hit_entriesInv cap d now key T ih hT hnow

/-- C8: state invariant — under a non-decreasing clock, every live entry of
every table reachable through the deduplicator's operations (empty initial
table, `Hit` inserts/updates, `PrunedCopy` rebuilds) satisfies
`sampleTime ≤ accessTime`. -/
theorem reachable_sampleTime_le_accessTime (cap : Nat) (d : LRU) (T : Nat)
    (h : Reach cap d T) :
    ∀ e ∈ d.tbl.entries, e.Key ≠ 0 →
      SampleTime e.Data ≤ AccessTime e.Data :=
  fun e he hk => (Reach_entriesInv cap d T h e he hk).2.1

/-- Witness for C8 at the concrete state reached by two `Hit` calls (keys
9 then 5, which collide modulo 4) at times 100 and 110 from a fresh
capacity-4 deduplicator: the slot of key 5 satisfies the invariant. -/
theorem reachable_sampleTime_le_accessTime_inst :
    SampleTime ((Hit 4 (Hit 4 (newLRUState 4 30 7) 100 9).2 110 5).2.tbl.entries.getD
        2 default).Data ≤
      AccessTime ((Hit 4 (Hit 4 (newLRUState 4 30 7) 100 9).2 110 5).2.tbl.entries.getD
        2 default).Data :=
  reachable_sampleTime_le_accessTime 4 _ 110
    (Reach.step _ 100 110 5
      (Reach.step _ 0 100 9 (Reach.init 30 7) (by decide) (by decide))
      (by decide) (by decide))
    _ (by decide) (by decide)

/-! ### `PrunedCopy` postcondition (C2) -/

/-- The live (non-blank) slots of an entry list. -/
def liveList (l : List entry) : List entry :=
  l.filter fun e => e.Key ≠ 0

lemma liveEntries_eq_liveList (t : table) : liveEntries t = liveList t.entries :=
  rfl

lemma liveList_replicate (n : Nat) :
    liveList (List.replicate n (default : entry)) = [] := by
  rw [liveList, List.filter_eq_nil_iff]
  intro x hx
  rw [List.eq_of_mem_replicate hx]
  show ¬(!decide ((⟨0, 0⟩ : entry).Key = 0)) = true
  decide

lemma getD_eq_getElem_of_lt {l : List entry} {n : Nat} (h : n < l.length) :
    l.getD n default = l[n] := by
  rw [List.getD_eq_getElem?_getD, List.getElem?_eq_getElem h]
  rfl

/-- When fewer than `cap` slots are live, some main (non-overflow) slot is
free. -/
lemma free_slot_of_liveCount (cap : Nat) (l : List entry)
    (hlen : l.length = cap + 1) (hcount : (liveList l).length < cap) :
    ∃ i, i < cap ∧ (l.getD i default).Key = 0 := by
  by_contra hno
  push_neg at hno
  have htake : liveList (l.take cap) = l.take cap := by
    rw [liveList, List.filter_eq_self]
    intro x hx
    obtain ⟨j, hj, hx⟩ := List.mem_iff_getElem.mp hx
    have hj2 : j < cap := by
      have : (l.take cap).length = cap := by
        rw [List.length_take, hlen]; omega
      omega
    have hjl : j < l.length := by omega
    have hx2 : x = l[j] := by rw [← hx, List.getElem_take]
    have hgd : l.getD j default = l[j] := getD_eq_getElem_of_lt hjl
    have := hno j hj2
    rw [hgd] at this
    rw [hx2]
    simpa using this
  have hge : cap ≤ (liveList l).length := by
    have hsplit : liveList l = liveList (l.take cap) ++ liveList (l.drop cap) := by
      rw [liveList, liveList, liveList, ← List.filter_append,
        List.take_append_drop]
    have h1 : (liveList (l.take cap)).length = cap := by
      rw [htake, List.length_take, hlen]; omega
    rw [hsplit, List.length_append, h1]
    omega
  omega

/-- A free main slot is reachable by the probe sequence (the probes cover
all of `[0, cap)`). -/
lemma exists_free_probe (cap : Nat) (t : table) (key : Nat) (hcap : 0 < cap)
    (hfree : ∃ i, i < cap ∧ (t.entries.getD i default).Key = 0) :
    ∃ i, i < cap ∧ probeKey t cap key i = 0 := by
  obtain ⟨i, hi, h0⟩ := hfree
  refine ⟨(cap - key % cap + i) % cap, Nat.mod_lt _ hcap, ?_⟩
  unfold probeKey probeIdx
  have hk : key % cap < cap := Nat.mod_lt _ hcap
  have hidx : (key % cap + (cap - key % cap + i) % cap) % cap = i := by
    rw [Nat.add_comm (key % cap) _, Nat.mod_add_mod]
    have h2 : cap - key % cap + i + key % cap = cap + i := by omega
    rw [h2, Nat.add_mod_left, Nat.mod_eq_of_lt hi]
  rw [hidx, h0]

/-- When the key is in no probed slot but some probed slot is free,
`FindEntry` designates an in-range free slot. -/
lemma FindEntry_fresh_slot (cap : Nat) (t : table) (key : Nat) (hcap : 0 < cap)
    (hnotin : ∀ i, i < cap → probeKey t cap key i ≠ key)
    (hfree : ∃ i, i < cap ∧ probeKey t cap key i = 0) :
    (FindEntry cap t key).1 < cap ∧
      (t.entries.getD (FindEntry cap t key).1 default).Key = 0 := by
  have hP : ∃ i, i < cap ∧ probeStops t cap key i := by
    obtain ⟨i, hi, h0⟩ := hfree
    exact ⟨i, hi, Or.inl h0⟩
  obtain ⟨hi0, hstop0⟩ := Nat.find_spec hP
  have hfirst : ∀ j, j < Nat.find hP → ¬probeStops t cap key j := by
    intro j hj hstop
    exact Nat.find_min hP hj ⟨by omega, hstop⟩
  have h := findEntryLoop_hit t cap key hcap cap 0 (Nat.find hP)
    (Nat.zero_le _) (by omega) hstop0 (fun j _ hj => hfirst j hj)
  rw [probeIdx_zero] at h
  unfold FindEntry
  rw [h]
  refine ⟨Nat.mod_lt _ hcap, ?_⟩
  rcases hstop0 with h0 | hkey
  · exact h0
  · exact absurd hkey (hnotin _ hi0)

/-- Storing a live entry into a free slot adds exactly that entry to the
live slots. -/
lemma liveList_set_free (l : List entry) (idx : Nat) (e : entry)
    (hidx : idx < l.length) (hfree : (l.getD idx default).Key = 0)
    (he : e.Key ≠ 0) :
    List.Perm (liveList (l.set idx e)) (e :: liveList l) := by
  have hset : l.set idx e = l.take idx ++ e :: l.drop (idx + 1) := by
    rw [List.set_eq_take_append_cons_drop, if_pos hidx]
  have hl : l = l.take idx ++ l[idx] :: l.drop (idx + 1) := by
    conv_lhs => rw [← List.take_append_drop idx l]
    rw [List.drop_eq_getElem_cons hidx]
  have hkey0 : (decide (l[idx].Key ≠ 0)) = false := by
    have : l[idx].Key = 0 := by
      rw [← getD_eq_getElem_of_lt hidx]
      exact hfree
    simp [this]
  have hfl : liveList l = liveList (l.take idx) ++ liveList (l.drop (idx + 1)) := by
    rw [liveList, liveList, liveList]
    conv_lhs => rw [hl]
    rw [List.filter_append, List.filter_cons, hkey0]
    simp only [Bool.false_eq_true, if_false]
  have hel : (decide (e.Key ≠ 0)) = true := by simp [he]
  rw [hfl, hset, liveList, List.filter_append, List.filter_cons, hel]
  simp only [if_true]
  exact List.perm_middle

lemma pruneLoop_succ_stop (cap n : Nat) (t0 : table) (cands : List entry)
    (count : Nat) (h : ¬count < keepCount) :
    pruneLoop cap (n + 1) t0 cands count = (t0, count) := by
  simp only [pruneLoop, if_neg h]

lemma pruneLoop_succ_none (cap n : Nat) (t0 : table) (cands : List entry)
    (count : Nat) (hcnt : count < keepCount) (hp : popMax cands = none) :
    pruneLoop cap (n + 1) t0 cands count = (t0, count) := by
  simp only [pruneLoop, if_pos hcnt, hp]

lemma pruneLoop_succ_pop (cap n : Nat) (t0 : table) (cands : List entry)
    (count : Nat) (hcnt : count < keepCount) (e : entry) (rest : List entry)
    (hp : popMax cands = some (e, rest)) :
    pruneLoop cap (n + 1) t0 cands count =
      pruneLoop cap n (storeEntry t0 (FindEntry cap t0 e.Key).1 e) rest
        (count + 1) := by
  simp only [pruneLoop, if_pos hcnt, hp]

/-- The reinsertion loop keeps exactly the `min (keepCount - count)
(length cands)` candidates of highest access time: the candidates split
(up to permutation) into a kept part `R` and a leftover part `L` dominated
by `R`, the live slots of the result are `R` plus the start table's live
slots, and the counter advances by `R.length`. -/
lemma pruneLoop_spec (cap : Nat) (hcap : 0 < cap) :
    ∀ fuel (cands : List entry) (t0 : table) (count : Nat),
      cands.length ≤ fuel →
      t0.entries.length = cap + 1 →
      (∀ e ∈ cands, e.Key ≠ 0) →
      cands.Pairwise (fun a b => a.Key ≠ b.Key) →
      (∀ e ∈ cands, ∀ x ∈ liveList t0.entries, e.Key ≠ x.Key) →
      (liveList t0.entries).length + (keepCount - count) ≤ cap →
      ∃ R L : List entry,
        List.Perm cands (R ++ L) ∧
        R.length = min (keepCount - count) cands.length ∧
        (∀ r ∈ R, ∀ x ∈ L, AccessTime x.Data ≤ AccessTime r.Data) ∧
        List.Perm (liveList (pruneLoop cap fuel t0 cands count).1.entries)
          (R ++ liveList t0.entries) ∧
        (pruneLoop cap fuel t0 cands count).2 = count + R.length := by
  intro fuel
  induction fuel with
  | zero =>
    intro cands t0 count hfuel _ _ _ _ _
    have hc : cands = [] := List.length_eq_zero.mp (Nat.le_zero.mp hfuel)
    subst hc
    exact ⟨[], [], List.Perm.refl _, by simp, by simp, List.Perm.refl _,
      by simp [pruneLoop]⟩
  | succ n ih =>
    intro cands t0 count hfuel hlen hkeys hpw hdisj hroom
    by_cases hcnt : count < keepCount
    · cases hp : popMax cands with
      | none =>
        have hc : cands = [] := (popMax_eq_none cands).mp hp
        subst hc
        rw [pruneLoop_succ_none cap n t0 [] count hcnt hp]
        exact ⟨[], [], List.Perm.refl _, by simp, by simp,
          List.Perm.refl _, by simp⟩
      | some p =>
        obtain ⟨e, rest⟩ := p
        have hperm : List.Perm cands (e :: rest) := popMax_perm cands e rest hp
        have hmax : ∀ y ∈ rest, AccessTime y.Data ≤ AccessTime e.Data :=
          popMax_max cands e rest hp
        have heMem : e ∈ cands := hperm.mem_iff.mpr (List.mem_cons_self e rest)
        have heKey : e.Key ≠ 0 := hkeys e heMem
        have hpw2 : (e :: rest).Pairwise (fun a b => a.Key ≠ b.Key) :=
          (hperm.pairwise_iff (fun h => Ne.symm h)).mp hpw
        have hpwCons := List.pairwise_cons.mp hpw2
        have hliveLt : (liveList t0.entries).length < cap := by omega
        have hnotin : ∀ i, i < cap → probeKey t0 cap e.Key i ≠ e.Key := by
          intro i hi hcontra
          have hpi : probeIdx cap e.Key i < cap := Nat.mod_lt _ hcap
          have hpil : probeIdx cap e.Key i < t0.entries.length := by omega
          have hslotMem : t0.entries.getD (probeIdx cap e.Key i) default
              ∈ t0.entries := by
            rw [getD_eq_getElem_of_lt hpil]
            exact List.getElem_mem hpil
          have hslotKey : (t0.entries.getD (probeIdx cap e.Key i) default).Key
              = e.Key := hcontra
          have hslotLive : t0.entries.getD (probeIdx cap e.Key i) default
              ∈ liveList t0.entries := by
            rw [liveList]
            refine List.mem_filter.mpr ⟨hslotMem, ?_⟩
            rw [hslotKey]
            simp [heKey]
          exact hdisj e heMem _ hslotLive (by rw [hslotKey])
        have hfree : ∃ i, i < cap ∧ probeKey t0 cap e.Key i = 0 :=
          exists_free_probe cap t0 e.Key hcap
            (free_slot_of_liveCount cap t0.entries hlen hliveLt)
        obtain ⟨hidxLt, hidxFree⟩ :=
          FindEntry_fresh_slot cap t0 e.Key hcap hnotin hfree
        have hidxLen : (FindEntry cap t0 e.Key).1 < t0.entries.length := by
          omega
        have hlive1 : List.Perm
            (liveList ((storeEntry t0 (FindEntry cap t0 e.Key).1 e).entries))
            (e :: liveList t0.entries) :=
          liveList_set_free t0.entries _ e hidxLen hidxFree heKey
        have hrestLen : rest.length ≤ n := by
          have := hperm.length_eq
          simp at this
          omega
        have hlen1 : (storeEntry t0 (FindEntry cap t0 e.Key).1 e).entries.length
            = cap + 1 := by
          rw [storeEntry, List.length_set]
          exact hlen
        have hkeys1 : ∀ x ∈ rest, x.Key ≠ 0 := fun x hx =>
          hkeys x (hperm.mem_iff.mpr (List.mem_cons_of_mem e hx))
        have hdisj1 : ∀ x ∈ rest,
            ∀ y ∈ liveList (storeEntry t0 (FindEntry cap t0 e.Key).1 e).entries,
              x.Key ≠ y.Key := by
          intro x hx y hy
          rcases List.mem_cons.mp (hlive1.mem_iff.mp hy) with rfl | hy0
          · exact fun hxy => (hpwCons.1 x hx) hxy.symm
          · exact hdisj x (hperm.mem_iff.mpr (List.mem_cons_of_mem e hx)) y hy0
        have hroom1 :
            (liveList (storeEntry t0 (FindEntry cap t0 e.Key).1 e).entries).length
              + (keepCount - (count + 1)) ≤ cap := by
          have h1 := hlive1.length_eq
          simp only [List.length_cons] at h1
          omega
        obtain ⟨R1, L1, hq1, hq2, hq3, hq4, hq5⟩ :=
          ih rest (storeEntry t0 (FindEntry cap t0 e.Key).1 e) (count + 1)
            hrestLen hlen1 hkeys1 hpwCons.2 hdisj1 hroom1
        refine ⟨e :: R1, L1, ?_, ?_, ?_, ?_, ?_⟩
        · exact hperm.trans (hq1.cons e)
        · have hclen : cands.length = rest.length + 1 := by
            have := hperm.length_eq
            simpa using this
          simp only [List.length_cons, hq2, hclen]
          omega
        · intro r hr x hx
          rcases List.mem_cons.mp hr with rfl | hr1
          · exact hmax x (hq1.mem_iff.mpr (List.mem_append_right R1 hx))
          · exact hq3 r hr1 x hx
        · rw [pruneLoop_succ_pop cap n t0 cands count hcnt e rest hp]
          exact hq4.trans ((List.Perm.append_left R1 hlive1).trans
            List.perm_middle)
        · rw [pruneLoop_succ_pop cap n t0 cands count hcnt e rest hp, hq5]
          simp only [List.length_cons]
          omega
    · rw [pruneLoop_succ_stop cap n t0 cands count hcnt]
      refine ⟨[], cands, List.Perm.refl _, ?_, by simp, List.Perm.refl _,
        by simp⟩
      simp only [List.length_nil]
      omega

/-- C2: postcondition of `table.PrunedCopy threshold` (for a receiver whose
live slots carry pairwise-distinct keys, on a capacity that accommodates
the retention bound): the candidates — non-blank entries with
`sampleTime ≥ threshold` — split, up to permutation, into a retained part
`R` of size `min keepCount (number of candidates)` and a leftover part
dominated by `R` in access time; the copy's live slots are exactly `R`
(keys and packed data unchanged), and its counter equals `R.length`, never
exceeding `keepCount = MaxItemCount*2/3`.  The receiver itself is untouched
(`PrunedCopy` is a pure function of it). -/
theorem PrunedCopy_spec (cap : Nat) (t : table) (threshold : Nat)
    (hkeep : keepCount ≤ cap)
    (hlen : t.entries.length = cap + 1)
    (hdk : (liveEntries t).Pairwise (fun a b => a.Key ≠ b.Key)) :
    ∃ R L : List entry,
      List.Perm (candidates t threshold) (R ++ L) ∧
      R.length = min keepCount (candidates t threshold).length ∧
      (∀ r ∈ R, ∀ x ∈ L, AccessTime x.Data ≤ AccessTime r.Data) ∧
      List.Perm (liveEntries (PrunedCopy cap t threshold)) R ∧
      (PrunedCopy cap t threshold).count = R.length ∧
      (PrunedCopy cap t threshold).count ≤ keepCount := by
  have hcap : 0 < cap := by
    have h0 : 0 < keepCount := by decide
    omega
  have hempty : liveList (emptyTable cap).entries = [] := by
    rw [show (emptyTable cap).entries = List.replicate (cap + 1) default
      from rfl, liveList_replicate]
  have hcands_sub : List.Sublist (candidates t threshold) (liveEntries t) := by
    have heq : candidates t threshold
        = (liveEntries t).filter (fun e => ¬SampleTime e.Data < threshold) := by
      rw [candidates, liveEntries, List.filter_filter]
      apply List.filter_congr
      intro x _
      by_cases h1 : x.Key = 0 <;> by_cases h2 : SampleTime x.Data < threshold <;>
        simp [h1, h2]
    rw [heq]
    exact List.filter_sublist _
  have hpwC : (candidates t threshold).Pairwise (fun a b => a.Key ≠ b.Key) :=
    hdk.sublist hcands_sub
  have hkeysC : ∀ e ∈ candidates t threshold, e.Key ≠ 0 := by
    intro e he
    have h := List.of_mem_filter he
    simp only [decide_not, Bool.not_eq_eq_eq_not, Bool.not_true,
      decide_eq_false_iff_not] at h
    exact fun h0 => h (Or.inl h0)
  have hdisjC : ∀ e ∈ candidates t threshold,
      ∀ x ∈ liveList (emptyTable cap).entries, e.Key ≠ x.Key := by
    intro e _ x hx
    rw [hempty] at hx
    simp at hx
  have hroom0 : (liveList (emptyTable cap).entries).length +
      (keepCount - 0) ≤ cap := by
    rw [hempty]
    simpa using hkeep
  have hlenE : (emptyTable cap).entries.length = cap + 1 := by
    simp [emptyTable]
  obtain ⟨R, L, h1, h2, h3, h4, h5⟩ :=
    pruneLoop_spec cap hcap (candidates t threshold).length
      (candidates t threshold) (emptyTable cap) 0 (Nat.le_refl _) hlenE
      hkeysC hpwC hdisjC hroom0
  rw [hempty] at h4
  refine ⟨R, L, h1, by simpa using h2, h3, by simpa using h4, ?_, ?_⟩
  · show (pruneLoop cap (candidates t threshold).length (emptyTable cap)
      (candidates t threshold) 0).2 = R.length
    rw [h5]
    omega
  · show (pruneLoop cap (candidates t threshold).length (emptyTable cap)
      (candidates t threshold) 0).2 ≤ keepCount
    rw [h5]
    simp only [Nat.sub_zero] at h2
    omega

/-- Witness for C2 at capacity 2730 (= `keepCount`) with the empty table as
receiver and threshold 6: the hypotheses are discharged concretely. -/
theorem PrunedCopy_spec_inst :
    (keepCount ≤ 2730 ∧ (emptyTable 2730).entries.length = 2730 + 1) ∧
      ∃ R L : List entry,
        List.Perm (candidates (emptyTable 2730) 6) (R ++ L) ∧
        R.length = min keepCount (candidates (emptyTable 2730) 6).length ∧
        (∀ r ∈ R, ∀ x ∈ L, AccessTime x.Data ≤ AccessTime r.Data) ∧
        List.Perm (liveEntries (PrunedCopy 2730 (emptyTable 2730) 6)) R ∧
        (PrunedCopy 2730 (emptyTable 2730) 6).count = R.length ∧
        (PrunedCopy 2730 (emptyTable 2730) 6).count ≤ keepCount := by
  have hdk : (liveEntries (emptyTable 2730)).Pairwise
      (fun a b => a.Key ≠ b.Key) := by
    rw [liveEntries_eq_liveList, show (emptyTable 2730).entries
      = List.replicate (2730 + 1) default from rfl, liveList_replicate]
    exact List.Pairwise.nil
  have hlenE : (emptyTable 2730).entries.length = 2730 + 1 := by
    show (List.replicate (2730 + 1) (default : entry)).length = 2730 + 1
    rw [List.length_replicate]
  exact ⟨⟨by decide, hlenE⟩,
    PrunedCopy_spec 2730 (emptyTable 2730) 6 (by decide) hlenE hdk⟩

end AppSecInternal
